import Mathlib

/-!
Shallow embedding of the job-seeker repository (googleSearch.js and the two
unnamed script variants) for checking the natural-language specification.

The repository contains two variants of the same script:
* `googleSearch.js` (and `src/unnamed/part_002`): fetch all raw items
  (`fetchAllResults`), then filter by avoid-keywords and date, then remove
  URLs already in the processed file by exact string comparison (`main`).
* `src/unnamed/part_001`: incremental variant (`fetchNewResults`): per item,
  reject if the trim+lowercase normalized URL is in the processed set or
  duplicates an already-accepted URL, then avoid-keywords, then date.

Machine strings are Lean `String` (lists of characters); JavaScript string
operations used by the scripts (`trim`, `toLowerCase`, `includes`,
`split('\n')`, `replace(/"/g,'""')`) are embedded as executable character-list
functions below. Dates (`new Date(...)` values, compared with `<`) are
embedded as `Int` timestamps. The network is a stream of responses
`Nat → FetchResponse` indexed by the number of requests issued so far, and
the two pagination loops are fuel-indexed step functions returning `none`
when the fuel runs out before the loop exits.
-/

namespace JobSeeker

/-- JavaScript whitespace test used by `String.prototype.trim` (restricted to
the ASCII whitespace characters that can occur in the repository's data). -/
def isWs (c : Char) : Bool :=
  c == ' ' || c == '\t' || c == '\n' || c == '\r'

/-- Embedding of JavaScript `url.trim()`. -/
def jsTrim (s : String) : String :=
  String.mk (((s.data.dropWhile isWs).reverse.dropWhile isWs).reverse)

/-- Embedding of JavaScript `s.toLowerCase()` (ASCII case folding). -/
def jsToLower (s : String) : String :=
  String.mk (s.data.map Char.toLower)

/-- part_001 `normalizeUrl`: `url.trim().toLowerCase()`. -/
def normalizeUrl (url : String) : String :=
  jsToLower (jsTrim url)

/-- Does `hay` start with `needle`? (helper for the embedding of
JavaScript `String.prototype.includes`). -/
def listStarts : List Char → List Char → Bool
  | [], _ => true
  | _ :: _, [] => false
  | a :: as, b :: bs => a == b && listStarts as bs

/-- Does the second list contain the first as a contiguous segment? -/
def listContainsSub (needle : List Char) : List Char → Bool
  | [] => needle.isEmpty
  | c :: rest => listStarts needle (c :: rest) || listContainsSub needle rest

/-- Embedding of JavaScript `text.includes(sub)`. -/
def includes (text sub : String) : Bool :=
  listContainsSub sub.data text.data

/-- Embedding of JavaScript `data.split(sep)` for a single-character
separator, at the character-list level. -/
def splitChars (sep : Char) : List Char → List (List Char)
  | [] => [[]]
  | c :: rest =>
    match splitChars sep rest with
    | [] => [[c]]
    | cur :: others =>
      if c = sep then [] :: cur :: others else (c :: cur) :: others

/-- Embedding of JavaScript `data.split('\n')`. -/
def jsSplitNl (s : String) : List String :=
  (splitChars '\n' s.data).map String.mk

/-- Metatag entry of a search item: the two date fields the scripts read
(`article:published_time`, `og:published_time`), already parsed to integer
timestamps (`new Date(v).getTime()`); `none` models an absent field. -/
structure Tag where
  articlePublishedTime : Option Int
  ogPublishedTime : Option Int
deriving Repr, DecidableEq

/-- A search item as the scripts see it: `item.title` (absent modelled as
`""`, matching `item.title || ""`), `item.link` likewise, and
`item.pagemap.metatags` (`none` when `pagemap` or `metatags` is absent). -/
structure Item where
  title : String
  link : String
  pagemap : Option (List Tag)
deriving Repr, DecidableEq

/-- A record `{ Title, URL }` pushed to the accumulator and written to CSV. -/
structure ResultRecord where
  Title : String
  URL : String
deriving Repr, DecidableEq

/-- First published-time found in a metatag list: per tag,
`article:published_time` is consulted before `og:published_time`. -/
def firstTagDate : List Tag → Option Int
  | [] => none
  | tag :: rest =>
    match tag.articlePublishedTime with
    | some d => some d
    | none =>
      match tag.ogPublishedTime with
      | some d => some d
      | none => firstTagDate rest

/-- `getPublishedDate(item)` from both variants: scan
`item.pagemap.metatags` (if present) for a published time, else `null`. -/
def getPublishedDate (item : Item) : Option Int :=
  match item.pagemap with
  | none => none
  | some meta => firstTagDate meta

/-- `containsAvoidKeyword(text, avoidKeywords)` from both variants:
`avoidKeywords.some(k => text.toLowerCase().includes(k.toLowerCase()))`. -/
def containsAvoidKeyword (text : String) (avoidKeywords : List String) : Bool :=
  avoidKeywords.any fun keyword => includes (jsToLower text) (jsToLower keyword)

/-- Search criteria destructured by `buildQuery`; an absent or empty array is
modelled as `[]`, an absent or empty (falsy) `minDate` as `none` or `some ""`. -/
structure SearchCriteria where
  intitleKeywords : List String
  keywords : List String
  domains : List String
  locations : List String
  minDate : Option String
  avoidKeywords : List String
deriving Repr, DecidableEq

/-- Quote a term: the template `"${k}"`. -/
def quoteTerm (k : String) : String := "\"" ++ k ++ "\""

/-- The `.join(" OR ")` of the mapped terms. -/
def orJoin (terms : List String) : String := String.intercalate " OR " terms

/-- `buildQuery` from googleSearch.js (same text in part_001): each category
becomes a parenthesized OR-group when non-empty and `""` otherwise, and the
parts are joined by `.filter(Boolean).join(" ")`. -/
def buildQuery (c : SearchCriteria) : String :=
  let intitlePart := if 0 < c.intitleKeywords.length
    then "intitle:(" ++ orJoin (c.intitleKeywords.map quoteTerm) ++ ")" else ""
  let keywordsPart := if 0 < c.keywords.length
    then "(" ++ orJoin (c.keywords.map quoteTerm) ++ ")" else ""
  let domainsPart := if 0 < c.domains.length
    then "(" ++ orJoin (c.domains.map (fun d => "site:" ++ d)) ++ ")" else ""
  let locationsPart := if 0 < c.locations.length
    then "(" ++ orJoin (c.locations.map quoteTerm) ++ ")" else ""
  let excludePart := if 0 < c.avoidKeywords.length
    then "-(" ++ orJoin (c.avoidKeywords.map quoteTerm) ++ ")" else ""
  let datePart := match c.minDate with
    | some d => if d = "" then "" else "after:" ++ d
    | none => ""
  String.intercalate " "
    (([intitlePart, keywordsPart, domainsPart, locationsPart, excludePart,
       datePart]).filter (fun s => s ≠ ""))

/-- Specification-side clause list: one clause per non-empty category, in the
fixed source order, nothing for an empty or absent category. -/
def queryClauses (c : SearchCriteria) : List String :=
  (if 0 < c.intitleKeywords.length
    then ["intitle:(" ++ orJoin (c.intitleKeywords.map quoteTerm) ++ ")"] else [])
  ++ (if 0 < c.keywords.length
    then ["(" ++ orJoin (c.keywords.map quoteTerm) ++ ")"] else [])
  ++ (if 0 < c.domains.length
    then ["(" ++ orJoin (c.domains.map (fun d => "site:" ++ d)) ++ ")"] else [])
  ++ (if 0 < c.locations.length
    then ["(" ++ orJoin (c.locations.map quoteTerm) ++ ")"] else [])
  ++ (if 0 < c.avoidKeywords.length
    then ["-(" ++ orJoin (c.avoidKeywords.map quoteTerm) ++ ")"] else [])
  ++ (match c.minDate with
    | some d => if d = "" then [] else ["after:" ++ d]
    | none => [])

/-- part_002 `quoteJoin`: the template
`(${arr.map(item => `"${item}"`).join(' OR ')})`, applied unconditionally
(an empty array yields the clause `()`). -/
def quoteJoin (arr : List String) : String :=
  "(" ++ orJoin (arr.map quoteTerm) ++ ")"

/-- `buildQuery` from src/unnamed/part_002 (lines 8-15): keywords, domains
and locations are wrapped unconditionally, so an empty category still
contributes the clause `()`, which is a truthy (non-empty) string and
survives `.filter(Boolean)`; the intitleKeywords and avoidKeywords fields
of the criteria are not read at all; minDate contributes an `after:` token
when truthy. -/
def buildQueryOld (c : SearchCriteria) : String :=
  let keywordsPart := quoteJoin c.keywords
  let domainsPart := "(" ++ orJoin (c.domains.map (fun d => "site:" ++ d)) ++ ")"
  let locationsPart := quoteJoin c.locations
  let datePart := match c.minDate with
    | some d => if d = "" then "" else "after:" ++ d
    | none => ""
  String.intercalate " "
    (([keywordsPart, domainsPart, locationsPart, datePart]).filter
      (fun s => s ≠ ""))

/-- Configuration fields consumed by the fetch loops and the post-fetch
filter: `config.maxResults` (absent modelled as `none`), the avoid-keyword
list, and the `minDateObj` timestamp (`config.minDate ? new Date(...) : null`). -/
structure FetchConfig where
  maxResults : Option Nat
  avoidKeywords : List String
  minDateObj : Option Int
deriving Repr, DecidableEq

/-- The date test from both variants:
`if (minDateObj) { if (publishedDate && publishedDate < minDateObj) reject }`. -/
def dateReject (minDateObj : Option Int) (item : Item) : Bool :=
  match minDateObj with
  | some m =>
    match getPublishedDate item with
    | some d => decide (d < m)
    | none => false
  | none => false

/-- Rejection test of the item loop of part_001 `fetchNewResults` (lines
136-152): already processed (normalized lookup), already collected in this
run (normalized comparison), avoid keyword in the title, or published before
the configured minimum date. -/
def itemReject (cfg : FetchConfig) (processed : List String)
    (acc : List ResultRecord) (item : Item) : Bool :=
  let normalized := normalizeUrl item.link
  processed.contains normalized
    || acc.any (fun r => normalizeUrl r.URL == normalized)
    || containsAvoidKeyword item.title cfg.avoidKeywords
    || dateReject cfg.minDateObj item

/-- `newResults.length >= maxNewResults` for the two early-stop breaks of
`fetchNewResults`; with an absent `maxResults` the JavaScript comparison
against `undefined` is false. -/
def targetReachedB (cfg : FetchConfig) (acc : List ResultRecord) : Bool :=
  match cfg.maxResults with
  | some m => decide (acc.length ≥ m)
  | none => false

/-- `newResults.length < maxNewResults`, the while-loop guard of
`fetchNewResults`; false when `maxResults` is absent (`undefined`). -/
def guardContinue (cfg : FetchConfig) (acc : List ResultRecord) : Bool :=
  match cfg.maxResults with
  | some m => decide (acc.length < m)
  | none => false

/-- The item loop of `fetchNewResults` (lines 136-158): process the page's
items in order, skipping rejected ones, appending `{Title, URL}` for the
rest, and breaking out as soon as the accumulator reaches the target. -/
def processItems (cfg : FetchConfig) (processed : List String) :
    List ResultRecord → List Item → List ResultRecord
  | acc, [] => acc
  | acc, item :: rest =>
    if itemReject cfg processed acc item then
      processItems cfg processed acc rest
    else
      let acc' := acc ++ [⟨item.title, item.link⟩]
      if targetReachedB cfg acc' then acc'
      else processItems cfg processed acc' rest

/-- One remote response: a transport or JSON-decode failure, or a decoded
body with its item list (absent `data.items` modelled as `[]`) and the
optional `data.queries.nextPage[0].startIndex` hint. -/
inductive FetchResponse where
  | err : FetchResponse
  | ok (items : List Item) (nextStart : Option Nat) : FetchResponse
deriving Repr, DecidableEq

/-- Why the pagination loop exited. -/
inductive ExitReason where
  | targetReached
  | noMorePages
  | offsetCeiling
  | fetchError
deriving Repr, DecidableEq

/-- JavaScript truthiness of the next-page hint: a present hint with value
`0` is falsy and is treated as no hint. -/
def hintVal : Option Nat → Option Nat
  | some 0 => none
  | o => o

/-- Mutable state of a pagination loop: the `startIndex` cursor, the
accumulator, and how many requests have been issued so far (the index into
the response stream). -/
structure LoopState where
  startIndex : Nat
  acc : List ResultRecord
  reqCount : Nat
deriving Repr, DecidableEq

/-- Outcome of one `fetchNewResults` loop iteration after its request was
answered: exit the loop with the given records and reason, or continue from
the next state. -/
inductive StepRes where
  | stop (recs : List ResultRecord) (reason : ExitReason)
  | next (s : LoopState)
deriving Repr, DecidableEq

/-- One iteration of the `fetchNewResults` while-loop body (lines 124-173)
after the guard passed, applied to the response of the issued request:
a caught fetch error breaks with the accumulator unchanged; an empty item
list breaks; otherwise the page's items are processed, the target checked,
the next-page hint consulted, and the 91 offset ceiling enforced. -/
def stepNew (cfg : FetchConfig) (processed : List String) (s : LoopState) :
    FetchResponse → StepRes
  | .err => .stop s.acc .fetchError
  | .ok items next =>
    if items.isEmpty then .stop s.acc .noMorePages
    else
      let acc' := processItems cfg processed s.acc items
      if targetReachedB cfg acc' then .stop acc' .targetReached
      else
        match hintVal next with
        | none => .stop acc' .noMorePages
        | some n =>
          if n > 91 then .stop acc' .offsetCeiling
          else .next ⟨n, acc', s.reqCount + 1⟩

/-- Fuel-indexed run of the `fetchNewResults` pagination loop over a
response stream. It returns the list of start offsets of the requests
issued, the accumulated records, and the exit reason, or `none` when the
fuel is exhausted before the loop exits. -/
def runNew (cfg : FetchConfig) (processed : List String)
    (responses : Nat → FetchResponse) : Nat → LoopState →
    Option (List Nat × List ResultRecord × ExitReason)
  | 0, _ => none
  | fuel + 1, s =>
    if guardContinue cfg s.acc then
      match stepNew cfg processed s (responses s.reqCount) with
      | .stop recs reason => some ([s.startIndex], recs, reason)
      | .next s' =>
        match runNew cfg processed responses fuel s' with
        | none => none
        | some (tr, recs, reason) => some (s.startIndex :: tr, recs, reason)
    else some ([], s.acc, .targetReached)

/-- Initial loop state: `startIndex = 1`, empty accumulator, no request yet. -/
def initState : LoopState := ⟨1, [], 0⟩

/-- part_001 `loadProcessedUrls`: split the file on newlines, drop blank
lines, normalize each kept line. -/
def loadProcessedUrlsNew (data : String) : List String :=
  ((jsSplitNl data).filter (fun url => 0 < (jsTrim url).length)).map normalizeUrl

/-- googleSearch.js `loadProcessedUrls`: split the file on newlines and drop
blank lines; the kept lines are NOT normalized. -/
def loadProcessedUrlsAll (data : String) : List String :=
  (jsSplitNl data).filter (fun url => 0 < (jsTrim url).length)

/-- The filter step of googleSearch.js `main` (lines 158-171): drop items
whose title contains an avoid keyword or that were published before the
minimum date, keeping `{Title, URL}` of the rest. -/
def mainFilter (cfg : FetchConfig) (items : List Item) : List ResultRecord :=
  items.foldl (fun acc item =>
    if containsAvoidKeyword item.title cfg.avoidKeywords then acc
    else if dateReject cfg.minDateObj item then acc
    else acc ++ [⟨item.title, item.link⟩]) []

/-- googleSearch.js `main` lines 158-177: filter the raw items, then remove
results whose URL is in the processed set by exact (un-normalized)
comparison `processedUrls.has(result.URL)`. -/
def mainNewResults (cfg : FetchConfig) (processed : List String)
    (items : List Item) : List ResultRecord :=
  (mainFilter cfg items).filter (fun r => !(processed.contains r.URL))

/-- Effective target of `fetchAllResults`:
`config.maxResults || Infinity` — an absent or zero (falsy) `maxResults`
yields `Infinity`, modelled as `none`. -/
def effMax (cfg : FetchConfig) : Option Nat :=
  match cfg.maxResults with
  | none => none
  | some 0 => none
  | some m => some m

/-- `allItems.length >= maxResults` of `fetchAllResults`; always false
against `Infinity`. -/
def atMax (cfg : FetchConfig) (len : Nat) : Bool :=
  match effMax cfg with
  | some m => decide (len ≥ m)
  | none => false

/-- `allItems.length = maxResults` truncation of `fetchAllResults`. -/
def trimToMax (cfg : FetchConfig) (items : List Item) : List Item :=
  match effMax cfg with
  | some m => items.take m
  | none => items

/-- State of the `fetchAllResults` loop: cursor, raw item accumulator, and
number of requests issued. -/
structure AllState where
  startIndex : Nat
  allItems : List Item
  reqCount : Nat
deriving Repr, DecidableEq

/-- Outcome of one `fetchAllResults` iteration after its request was
answered. -/
inductive AllStepRes where
  | stop (items : List Item) (reason : ExitReason)
  | next (s : AllState)
deriving Repr, DecidableEq

/-- One iteration of the `fetchAllResults` while-loop body (lines 71-102)
after the top-of-loop length check passed: a caught error breaks; an empty
item list breaks; otherwise the page's items are appended raw, the
accumulator trimmed to `maxResults` when it reaches it, the next-page hint
consulted, and the 91 offset ceiling enforced. -/
def stepAll (cfg : FetchConfig) (s : AllState) : FetchResponse → AllStepRes
  | .err => .stop s.allItems .fetchError
  | .ok items next =>
    if items.isEmpty then .stop s.allItems .noMorePages
    else
      let acc' := s.allItems ++ items
      if atMax cfg acc'.length then .stop (trimToMax cfg acc') .targetReached
      else
        match hintVal next with
        | none => .stop acc' .noMorePages
        | some n =>
          if n > 91 then .stop acc' .offsetCeiling
          else .next ⟨n, acc', s.reqCount + 1⟩

/-- Fuel-indexed run of the `fetchAllResults` pagination loop (lines 68-103)
over a response stream: request-offset trace, raw items, exit reason, or
`none` when the fuel runs out first. -/
def runAll (cfg : FetchConfig) (responses : Nat → FetchResponse) :
    Nat → AllState → Option (List Nat × List Item × ExitReason)
  | 0, _ => none
  | fuel + 1, s =>
    if atMax cfg s.allItems.length then some ([], s.allItems, .targetReached)
    else
      match stepAll cfg s (responses s.reqCount) with
      | .stop items reason => some ([s.startIndex], items, reason)
      | .next s' =>
        match runAll cfg responses fuel s' with
        | none => none
        | some (tr, items, reason) => some (s.startIndex :: tr, items, reason)

/-- Initial `fetchAllResults` state. -/
def initAllState : AllState := ⟨1, [], 0⟩

/-- Character-level embedding of the global single-character replacement
`str.replace(/"/g, '""')`. -/
def escapeCSVChars : List Char → List Char
  | [] => []
  | c :: rest => (if c = '"' then ['"', '"'] else [c]) ++ escapeCSVChars rest

/-- `escapeCSV` from `appendToCSV` in both variants:
the template `"${str.replace(/"/g, '""')}"`. -/
def escapeCSV (str : String) : String :=
  String.mk ('"' :: (escapeCSVChars str.data ++ ['"']))

/-- The `results.forEach` accumulation of `appendToCSV`: one
`escapeCSV(Title),escapeCSV(URL)\n` row per record, appended in order. -/
def csvRowsData (results : List ResultRecord) : String :=
  results.foldl
    (fun csvData r =>
      csvData ++ (escapeCSV r.Title ++ "," ++ escapeCSV r.URL ++ "\n")) ""

/-- The data `appendToCSV` appends to the output file: the rows, preceded by
the header `Title,URL\n` exactly when the file did not already exist. -/
def appendToCSVData (fileExists : Bool) (results : List ResultRecord) : String :=
  if fileExists then csvRowsData results
  else "Title,URL\n" ++ csvRowsData results

/-- Decoder of a serialized CSV field (specification side): strip the outer
double quotes, collapsing each doubled interior quote, and fail on a field
that is not quote-wrapped or contains a lone interior quote. Accumulates the
decoded characters in reverse. -/
def csvUnquoteAux : List Char → List Char → Option (List Char)
  | acc, ['"'] => some acc.reverse
  | acc, '"' :: '"' :: rest => csvUnquoteAux ('"' :: acc) rest
  | _, '"' :: _ => none
  | acc, c :: rest => csvUnquoteAux (c :: acc) rest
  | _, [] => none

/-- Decode one serialized CSV field (specification side). -/
def csvUnquote (s : String) : Option String :=
  match s.data with
  | '"' :: rest => (csvUnquoteAux [] rest).map String.mk
  | _ => none

/-- Specification-side row serialization: the rows of the records, one
escaped `Title,URL` row per record, in order. -/
def csvRowsJoined : List ResultRecord → String
  | [] => ""
  | r :: rest => (escapeCSV r.Title ++ "," ++ escapeCSV r.URL ++ "\n")
      ++ csvRowsJoined rest

/-- One step of the `fetchNewResults` item loop without the early-stop
break, for relating the loop to a plain fold when the target cannot
truncate it. -/
def acceptStep (cfg : FetchConfig) (processed : List String)
    (acc : List ResultRecord) (item : Item) : List ResultRecord :=
  if itemReject cfg processed acc item then acc
  else acc ++ [⟨item.title, item.link⟩]

/-- Combined rejection test of the googleSearch.js `main` pipeline: avoid
keyword, date, or exact (un-normalized) membership in the processed set. -/
def rejectA (cfg : FetchConfig) (processed : List String) (item : Item) : Bool :=
  containsAvoidKeyword item.title cfg.avoidKeywords
    || dateReject cfg.minDateObj item
    || processed.contains item.link

/-- A response stream whose next-page hints always advance the cursor: the
hint answering the n-th request (requests are issued at strictly increasing
offsets starting from 1, so the n-th is issued at an offset of at least
n + 1) exceeds that offset. The real endpoint satisfies this: its hint is
the answered offset plus the page size. -/
def hintsAdvance (responses : Nat → FetchResponse) : Prop :=
  ∀ n items next k, responses n = .ok items next → hintVal next = some k →
    n + 2 ≤ k

/-- Item used by the adversarial stream below. -/
def c4Item : Item := ⟨"t", "u", none⟩

/-- Record accepted from `c4Item` on the first page. -/
def c4Rec : ResultRecord := ⟨"t", "u"⟩

/-- Adversarial response stream: every request is answered by the same
one-item page whose next-page hint is the fixed offset 2. -/
def c4Responses : Nat → FetchResponse := fun _ => .ok [c4Item] (some 2)

/-- Configuration used with the adversarial stream: target 5, no avoid
keywords, no minimum date. -/
def c4Cfg : FetchConfig := ⟨some 5, [], none⟩

lemma str_append_left_ne_empty (a b : String) (h : a ≠ "") : a ++ b ≠ "" := by
  intro hab
  apply h
  have hd := congrArg String.data hab
  rw [String.data_append] at hd
  rcases List.append_eq_nil.mp hd with ⟨h1, _⟩
  exact String.ext h1

lemma wrap_ne_empty (p x s : String) (hp : p ≠ "") : p ++ x ++ s ≠ "" :=
  str_append_left_ne_empty (p ++ x) s (str_append_left_ne_empty p x hp)

lemma intitle_ne (x : String) : ("intitle:(" ++ x ++ ")") ≠ "" :=
  wrap_ne_empty _ _ _ (by decide)

lemma paren_ne (x : String) : ("(" ++ x ++ ")") ≠ "" :=
  wrap_ne_empty _ _ _ (by decide)

lemma neg_paren_ne (x : String) : ("-(" ++ x ++ ")") ≠ "" :=
  wrap_ne_empty _ _ _ (by decide)

lemma after_ne (x : String) : ("after:" ++ x) ≠ "" :=
  str_append_left_ne_empty _ _ (by decide)

lemma filter_if_single (b : Prop) [Decidable b] (x : String) (hx : x ≠ "")
    (l : List String) :
    ((if b then x else "") :: l).filter (fun s => s ≠ "")
      = (if b then [x] else []) ++ l.filter (fun s => s ≠ "") := by
  by_cases h : b <;> simp [h, hx]

lemma buildQuery_parts_filter (c : SearchCriteria) :
    ([if 0 < c.intitleKeywords.length
        then "intitle:(" ++ orJoin (c.intitleKeywords.map quoteTerm) ++ ")" else "",
      if 0 < c.keywords.length
        then "(" ++ orJoin (c.keywords.map quoteTerm) ++ ")" else "",
      if 0 < c.domains.length
        then "(" ++ orJoin (c.domains.map (fun d => "site:" ++ d)) ++ ")" else "",
      if 0 < c.locations.length
        then "(" ++ orJoin (c.locations.map quoteTerm) ++ ")" else "",
      if 0 < c.avoidKeywords.length
        then "-(" ++ orJoin (c.avoidKeywords.map quoteTerm) ++ ")" else "",
      match c.minDate with
      | some d => if d = "" then "" else "after:" ++ d
      | none => ""].filter (fun s => s ≠ ""))
      = queryClauses c := by
  unfold queryClauses
  rw [filter_if_single _ _ (intitle_ne _), filter_if_single _ _ (paren_ne _),
    filter_if_single _ _ (paren_ne _), filter_if_single _ _ (paren_ne _),
    filter_if_single _ _ (neg_paren_ne _)]
  rcases c.minDate with _ | d
  · simp
  · by_cases hd : d = "" <;> simp [hd, after_ne]

/-- C3: for every criteria value, the built query is exactly the
single-space concatenation of the clause list that has one clause per
non-empty category in the fixed source order and no clause for an empty or
absent category, and none of those clauses is the empty string (in
particular no empty parentheses). -/
theorem c3_query_one_clause_per_category (c : SearchCriteria) :
    buildQuery c = String.intercalate " " (queryClauses c)
    ∧ ∀ cl ∈ queryClauses c, cl ≠ "" := by
  constructor
  · simp only [buildQuery]
    rw [buildQuery_parts_filter c]
  · intro cl hcl
    rw [← buildQuery_parts_filter c] at hcl
    have := List.of_mem_filter hcl
    simpa using this

/-- C7: with a configured minimum date, an item with no extractable
published date is never rejected by the date test; an item with an
extractable published date is rejected by it exactly when that date is
strictly earlier than the minimum; without a configured minimum the test
never rejects; and a date-rejected item contributes nothing to the
accumulator in the incremental item loop. -/
theorem c7_date_filter (m : Int) (item : Item) :
    (getPublishedDate item = none → dateReject (some m) item = false)
    ∧ (∀ d, getPublishedDate item = some d →
        (dateReject (some m) item = true ↔ d < m))
    ∧ dateReject none item = false
    ∧ (∀ (cfg : FetchConfig) (processed : List String) (acc : List ResultRecord)
        (d : Int), cfg.minDateObj = some m → getPublishedDate item = some d →
        d < m → processItems cfg processed acc [item] = acc) := by
  refine ⟨?_, ?_, rfl, ?_⟩
  · intro h; simp [dateReject, h]
  · intro d h; simp [dateReject, h]
  · intro cfg processed acc d hcfg hdate hlt
    have hrej : itemReject cfg processed acc item = true := by
      simp [itemReject, dateReject, hcfg, hdate, hlt]
    simp [processItems, hrej]

/-- C7 witness: rejection at published date 20241201 with minimum 20250101,
and no rejection on date grounds for an item without a published date. -/
theorem c7_date_filter_witness :
    dateReject (some 20250101) ⟨"t", "u", some [⟨some 20241201, none⟩]⟩ = true
    ∧ dateReject (some 20250101) ⟨"t", "u", none⟩ = false
    ∧ processItems ⟨some 5, [], some 20250101⟩ []
        [] [⟨"t", "u", some [⟨some 20241201, none⟩]⟩] = [] := by
  refine ⟨?_, ?_, ?_⟩
  · exact ((c7_date_filter 20250101 ⟨"t", "u", some [⟨some 20241201, none⟩]⟩).2.1
      20241201 rfl).mpr (by decide)
  · exact (c7_date_filter 20250101 ⟨"t", "u", none⟩).1 rfl
  · exact (c7_date_filter 20250101 ⟨"t", "u", some [⟨some 20241201, none⟩]⟩).2.2.2
      ⟨some 5, [], some 20250101⟩ [] [] 20241201 rfl rfl (by decide)

lemma listStarts_iff : ∀ (n h : List Char),
    listStarts n h = true ↔ ∃ t, h = n ++ t
  | [], h => by
    simp only [listStarts, List.nil_append]
    exact iff_of_true trivial ⟨h, rfl⟩
  | _ :: _, [] => by
    simp [listStarts]
  | a :: as, b :: bs => by
    simp only [listStarts, Bool.and_eq_true, beq_iff_eq, listStarts_iff as bs,
      List.cons_append]
    constructor
    · rintro ⟨rfl, t, rfl⟩; exact ⟨t, rfl⟩
    · rintro ⟨t, heq⟩
      injection heq with h1 h2
      exact ⟨h1.symm, t, h2⟩

lemma listContainsSub_iff (n : List Char) : ∀ h : List Char,
    listContainsSub n h = true ↔ ∃ pre post, h = pre ++ n ++ post := by
  intro h
  induction h with
  | nil =>
    simp only [listContainsSub, List.isEmpty_iff]
    constructor
    · rintro rfl; exact ⟨[], [], rfl⟩
    · rintro ⟨pre, post, heq⟩
      rcases List.append_eq_nil.mp heq.symm with ⟨h1, h2⟩
      rcases List.append_eq_nil.mp h1 with ⟨_, h3⟩
      exact h3
  | cons c rest ih =>
    simp only [listContainsSub, Bool.or_eq_true, listStarts_iff, ih]
    constructor
    · rintro (⟨t, heq⟩ | ⟨pre, post, heq⟩)
      · exact ⟨[], t, by simpa using heq⟩
      · exact ⟨c :: pre, post, by simp [heq]⟩
    · rintro ⟨pre, post, heq⟩
      cases pre with
      | nil => exact Or.inl ⟨post, by simpa using heq⟩
      | cons p ps =>
        right
        rw [List.cons_append, List.cons_append] at heq
        injection heq with h1 h2
        exact ⟨ps, post, h2⟩

/-- C8: a title is flagged by the avoid-keyword test exactly when the
lowercased form of at least one avoid keyword occurs as a contiguous
substring of the lowercased title, and in particular the spec's example
title is flagged when the avoid keywords include "government clearance". -/
theorem c8_avoid_keyword_substring (text : String) (kws : List String) :
    (containsAvoidKeyword text kws = true ↔
      ∃ kw ∈ kws, ∃ pre post,
        (jsToLower text).data = pre ++ (jsToLower kw).data ++ post)
    ∧ containsAvoidKeyword
        "Senior Frontend Developer (Cleared — Government Clearance Required)"
        ["government clearance"] = true := by
  constructor
  · simp only [containsAvoidKeyword, includes, List.any_eq_true,
      listContainsSub_iff]
  · decide

lemma str_append_empty (s : String) : s ++ "" = s := by
  apply String.ext
  rw [String.data_append]
  exact List.append_nil s.data

lemma str_empty_append (s : String) : "" ++ s = s := by
  apply String.ext
  rw [String.data_append]
  rfl

lemma str_append_assoc (a b c : String) : a ++ b ++ c = a ++ (b ++ c) := by
  apply String.ext
  simp only [String.data_append, List.append_assoc]

lemma csvRowsData_foldl (rs : List ResultRecord) : ∀ init : String,
    rs.foldl (fun csvData r =>
        csvData ++ (escapeCSV r.Title ++ "," ++ escapeCSV r.URL ++ "\n")) init
      = init ++ csvRowsJoined rs := by
  induction rs with
  | nil => intro init; simp [csvRowsJoined, str_append_empty]
  | cons r rest ih =>
    intro init
    rw [List.foldl_cons, ih, csvRowsJoined, str_append_assoc]

lemma csvRowsData_eq (rs : List ResultRecord) :
    csvRowsData rs = csvRowsJoined rs := by
  rw [csvRowsData, csvRowsData_foldl rs "", str_empty_append]

lemma csvUnquoteAux_cons_ne {c : Char} (hc : c ≠ '"') (acc rest : List Char) :
    csvUnquoteAux acc (c :: rest) = csvUnquoteAux (c :: acc) rest := by
  simp [csvUnquoteAux, hc]

lemma csvUnquoteAux_escape : ∀ (cs acc : List Char),
    csvUnquoteAux acc (escapeCSVChars cs ++ ['"']) = some (acc.reverse ++ cs) := by
  intro cs
  induction cs with
  | nil => intro acc; simp [escapeCSVChars, csvUnquoteAux]
  | cons c rest ih =>
    intro acc
    by_cases hc : c = '"'
    · subst hc
      have h1 : escapeCSVChars ('"' :: rest) = '"' :: '"' :: escapeCSVChars rest := by
        simp [escapeCSVChars]
      rw [h1, List.cons_append, List.cons_append]
      rw [show csvUnquoteAux acc ('"' :: '"' :: (escapeCSVChars rest ++ ['"']))
          = csvUnquoteAux ('"' :: acc) (escapeCSVChars rest ++ ['"']) from rfl]
      rw [ih ('"' :: acc)]
      simp
    · have h1 : escapeCSVChars (c :: rest) = c :: escapeCSVChars rest := by
        simp [escapeCSVChars, hc]
      rw [h1, List.cons_append]
      rw [csvUnquoteAux_cons_ne hc, ih (c :: acc)]
      simp

lemma csvUnquote_escape (s : String) : csvUnquote (escapeCSV s) = some s := by
  have hdata : (escapeCSV s).data = '"' :: (escapeCSVChars s.data ++ ['"']) := rfl
  rw [csvUnquote, hdata]
  rw [show (match ('"' :: (escapeCSVChars s.data ++ ['"']) : List Char) with
      | '"' :: rest => (csvUnquoteAux [] rest).map String.mk
      | _ => none)
    = (csvUnquoteAux [] (escapeCSVChars s.data ++ ['"'])).map String.mk from rfl]
  rw [csvUnquoteAux_escape s.data []]
  rfl

/-- C9: the data appended to the CSV file is exactly the escaped rows of
the records in order, preceded by the header row exactly when the output
file did not already exist; field escaping wraps the field in double quotes
doubling each interior quote, losslessly (the specification-side decoder
recovers the original field), and serializes the example title as the spec
states. -/
theorem c9_csv_escaping_and_header (ex : Bool) (rs : List ResultRecord) :
    appendToCSVData ex rs
      = (if ex then "" else "Title,URL\n") ++ csvRowsJoined rs
    ∧ (∀ s : String, csvUnquote (escapeCSV s) = some s)
    ∧ escapeCSV "Senior \"Frontend\" Dev" = "\"Senior \"\"Frontend\"\" Dev\"" := by
  refine ⟨?_, csvUnquote_escape, by decide⟩
  cases ex with
  | true => simp [appendToCSVData, csvRowsData_eq, str_empty_append]
  | false => simp [appendToCSVData, csvRowsData_eq]

lemma itemReject_false {cfg : FetchConfig} {P : List String}
    {acc : List ResultRecord} {item : Item}
    (h : itemReject cfg P acc item = false) :
    P.contains (normalizeUrl item.link) = false
    ∧ (acc.any fun r => normalizeUrl r.URL == normalizeUrl item.link) = false
    ∧ containsAvoidKeyword item.title cfg.avoidKeywords = false
    ∧ dateReject cfg.minDateObj item = false := by
  simp only [itemReject, Bool.or_eq_false_iff] at h
  exact ⟨h.1.1.1, h.1.1.2, h.1.2, h.2⟩

lemma processItems_mem (cfg : FetchConfig) (P : List String) :
    ∀ (items : List Item) (acc : List ResultRecord) (r : ResultRecord),
    r ∈ processItems cfg P acc items →
    r ∈ acc ∨ P.contains (normalizeUrl r.URL) = false := by
  intro items
  induction items with
  | nil =>
    intro acc r h
    rw [processItems] at h
    exact Or.inl h
  | cons item rest ih =>
    intro acc r h
    rw [processItems] at h
    by_cases hrej : itemReject cfg P acc item = true
    · rw [if_pos hrej] at h
      exact ih acc r h
    · have hrejf : itemReject cfg P acc item = false :=
        Bool.eq_false_iff.mpr hrej
      rw [if_neg hrej] at h
      simp only [] at h
      have hnotP : P.contains (normalizeUrl item.link) = false :=
        (itemReject_false hrejf).1
      have key : ∀ x ∈ acc ++ [(⟨item.title, item.link⟩ : ResultRecord)],
          x ∈ acc ∨ P.contains (normalizeUrl x.URL) = false := by
        intro x hx
        rcases List.mem_append.mp hx with h1 | h2
        · exact Or.inl h1
        · rw [List.mem_singleton] at h2
          subst h2
          exact Or.inr hnotP
      by_cases ht : targetReachedB cfg (acc ++ [⟨item.title, item.link⟩]) = true
      · rw [if_pos ht] at h
        exact key r h
      · rw [if_neg ht] at h
        rcases ih _ r h with h1 | h2
        · exact key r h1
        · exact Or.inr h2

lemma stepNew_stop_mem {cfg : FetchConfig} {P : List String} {s : LoopState}
    {resp : FetchResponse} {recs : List ResultRecord} {reason : ExitReason}
    (h : stepNew cfg P s resp = .stop recs reason) :
    ∀ r ∈ recs, r ∈ s.acc ∨ P.contains (normalizeUrl r.URL) = false := by
  intro r hr
  cases resp with
  | err =>
    rw [stepNew] at h
    injection h with h1 _
    subst h1
    exact Or.inl hr
  | ok items next =>
    rw [stepNew] at h
    by_cases he : items.isEmpty = true
    · rw [if_pos he] at h
      injection h with h1 _
      subst h1
      exact Or.inl hr
    · rw [if_neg he] at h
      simp only [] at h
      by_cases ht : targetReachedB cfg (processItems cfg P s.acc items) = true
      · rw [if_pos ht] at h
        injection h with h1 _
        subst h1
        exact processItems_mem cfg P items s.acc r hr
      · rw [if_neg ht] at h
        cases hh : hintVal next with
        | none =>
          simp only [hh] at h
          injection h with h1 _
          subst h1
          exact processItems_mem cfg P items s.acc r hr
        | some n =>
          simp only [hh] at h
          by_cases hn : n > 91
          · rw [if_pos hn] at h
            injection h with h1 _
            subst h1
            exact processItems_mem cfg P items s.acc r hr
          · rw [if_neg hn] at h
            cases h

lemma stepNew_next_acc {cfg : FetchConfig} {P : List String} {s : LoopState}
    {resp : FetchResponse} {s' : LoopState}
    (h : stepNew cfg P s resp = .next s') :
    ∃ items, s'.acc = processItems cfg P s.acc items := by
  cases resp with
  | err => rw [stepNew] at h; cases h
  | ok items next =>
    rw [stepNew] at h
    by_cases he : items.isEmpty = true
    · rw [if_pos he] at h; cases h
    · rw [if_neg he] at h
      simp only [] at h
      by_cases ht : targetReachedB cfg (processItems cfg P s.acc items) = true
      · rw [if_pos ht] at h; cases h
      · rw [if_neg ht] at h
        cases hh : hintVal next with
        | none => simp only [hh] at h; cases h
        | some n =>
          simp only [hh] at h
          by_cases hn : n > 91
          · rw [if_pos hn] at h; cases h
          · rw [if_neg hn] at h
            injection h with h1
            subst h1
            exact ⟨items, rfl⟩

lemma stepNew_next_shape {cfg : FetchConfig} {P : List String} {s : LoopState}
    {resp : FetchResponse} {s' : LoopState}
    (h : stepNew cfg P s resp = .next s') :
    s'.reqCount = s.reqCount + 1 ∧ s'.startIndex ≤ 91
    ∧ ∃ items next, resp = .ok items next
        ∧ hintVal next = some s'.startIndex := by
  cases resp with
  | err => rw [stepNew] at h; cases h
  | ok items next =>
    rw [stepNew] at h
    by_cases he : items.isEmpty = true
    · rw [if_pos he] at h; cases h
    · rw [if_neg he] at h
      simp only [] at h
      by_cases ht : targetReachedB cfg (processItems cfg P s.acc items) = true
      · rw [if_pos ht] at h; cases h
      · rw [if_neg ht] at h
        cases hh : hintVal next with
        | none => simp only [hh] at h; cases h
        | some n =>
          simp only [hh] at h
          by_cases hn : n > 91
          · rw [if_pos hn] at h; cases h
          · rw [if_neg hn] at h
            injection h with h1
            subst h1
            refine ⟨rfl, ?_, items, next, rfl, ?_⟩
            · show n ≤ 91
              omega
            · show hintVal next = some n
              exact hh

lemma runNew_mem (cfg : FetchConfig) (P : List String)
    (responses : Nat → FetchResponse) :
    ∀ (fuel : Nat) (s : LoopState) (tr : List Nat) (recs : List ResultRecord)
      (reason : ExitReason),
    runNew cfg P responses fuel s = some (tr, recs, reason) →
    ∀ r ∈ recs, r ∈ s.acc ∨ P.contains (normalizeUrl r.URL) = false := by
  intro fuel
  induction fuel with
  | zero =>
    intro s tr recs reason h
    rw [runNew] at h
    cases h
  | succ fuel ih =>
    intro s tr recs reason h r hr
    rw [runNew] at h
    by_cases hg : guardContinue cfg s.acc = true
    · rw [if_pos hg] at h
      cases hstep : stepNew cfg P s (responses s.reqCount) with
      | stop recs' reason' =>
        simp only [hstep] at h
        injection h with h1
        injection h1 with _ h2
        injection h2 with h3 _
        subst h3
        exact stepNew_stop_mem hstep r hr
      | next s' =>
        simp only [hstep] at h
        cases hrec : runNew cfg P responses fuel s' with
        | none => simp only [hrec] at h; cases h
        | some out =>
          obtain ⟨tr', recs', reason'⟩ := out
          simp only [hrec] at h
          injection h with h1
          injection h1 with _ h2
          injection h2 with h3 _
          subst h3
          rcases ih s' tr' recs' reason' hrec r hr with h1 | h2
          · obtain ⟨items, hacc⟩ := stepNew_next_acc hstep
            rw [hacc] at h1
            exact processItems_mem cfg P items s.acc r h1
          · exact Or.inr h2
    · rw [if_neg hg] at h
      injection h with h1
      injection h1 with _ h2
      injection h2 with h3 _
      subst h3
      exact Or.inl hr

/-- C1 (amended): in the incremental variant (part_001 `fetchNewResults`),
whatever the response stream does, no record in the output of a run started
from the processed-URL set loaded at startup has a normalized URL contained
in that set: membership is decided by normalized lookup for every item. -/
theorem c1_normalized_dedup_invariant (cfg : FetchConfig) (data : String)
    (responses : Nat → FetchResponse) (fuel : Nat) (tr : List Nat)
    (recs : List ResultRecord) (reason : ExitReason)
    (h : runNew cfg (loadProcessedUrlsNew data) responses fuel initState
      = some (tr, recs, reason)) :
    ∀ r ∈ recs,
      (loadProcessedUrlsNew data).contains (normalizeUrl r.URL) = false
      ∧ normalizeUrl r.URL ∉ loadProcessedUrlsNew data := by
  intro r hr
  rcases runNew_mem cfg (loadProcessedUrlsNew data) responses fuel initState
      tr recs reason h r hr with h1 | h2
  · cases h1
  · refine ⟨h2, fun hmem => ?_⟩
    have hT : (loadProcessedUrlsNew data).contains (normalizeUrl r.URL) = true :=
      List.elem_iff.mpr hmem
    rw [h2] at hT
    cases hT

/-- C1 witness: a run over one fresh page against the processed set loaded
from a file holding a different URL emits that page's record, whose
normalized URL is indeed not in the set. -/
theorem c1_normalized_dedup_invariant_witness :
    ((loadProcessedUrlsNew "http://b.com\n").contains
      (normalizeUrl "http://a.com") = false)
    ∧ normalizeUrl "http://a.com" ∉ loadProcessedUrlsNew "http://b.com\n" := by
  have := c1_normalized_dedup_invariant ⟨some 5, [], none⟩ "http://b.com\n"
    (fun _ => .ok [⟨"T", "http://a.com", none⟩] none) 1 [1]
    [⟨"T", "http://a.com"⟩] .noMorePages (by decide)
    ⟨"T", "http://a.com"⟩ (by decide)
  exact this

/-- C1 counterexample: in googleSearch.js `main`, membership in the
processed set is decided by exact un-normalized comparison, so a run whose
processed file holds "http://a.com" still emits a record for the item with
link "HTTP://A.COM", whose normalized URL is in the loaded set. -/
theorem c1_counterexample :
    mainNewResults ⟨some 10, [], none⟩
        (loadProcessedUrlsAll "http://a.com\n")
        [⟨"T", "HTTP://A.COM", none⟩]
      = [⟨"T", "HTTP://A.COM"⟩]
    ∧ normalizeUrl "HTTP://A.COM" ∈ loadProcessedUrlsAll "http://a.com\n" := by
  decide

lemma processItems_nodup (cfg : FetchConfig) (P : List String) :
    ∀ (items : List Item) (acc : List ResultRecord),
    ((acc.map fun r => normalizeUrl r.URL).Nodup) →
    ((processItems cfg P acc items).map fun r => normalizeUrl r.URL).Nodup := by
  intro items
  induction items with
  | nil =>
    intro acc hacc
    rw [processItems]
    exact hacc
  | cons item rest ih =>
    intro acc hacc
    rw [processItems]
    by_cases hrej : itemReject cfg P acc item = true
    · rw [if_pos hrej]
      exact ih acc hacc
    · have hrejf : itemReject cfg P acc item = false :=
        Bool.eq_false_iff.mpr hrej
      rw [if_neg hrej]
      simp only []
      have hdup : (acc.any fun r =>
          normalizeUrl r.URL == normalizeUrl item.link) = false :=
        (itemReject_false hrejf).2.1
      have hnew : ((acc ++ [(⟨item.title, item.link⟩ : ResultRecord)]).map
          fun r => normalizeUrl r.URL).Nodup := by
        rw [List.map_append]
        rw [List.nodup_append]
        refine ⟨hacc, List.nodup_singleton _, ?_⟩
        intro x hx hx2
        simp only [List.map_cons, List.map_nil, List.mem_singleton] at hx2
        subst hx2
        rcases List.mem_map.mp hx with ⟨r, hr, hreq⟩
        rw [List.any_eq_false] at hdup
        have := hdup r hr
        simp only [beq_iff_eq] at this
        exact this hreq
      by_cases ht : targetReachedB cfg (acc ++ [⟨item.title, item.link⟩]) = true
      · rw [if_pos ht]
        exact hnew
      · rw [if_neg ht]
        exact ih _ hnew

lemma processItems_len (cfg : FetchConfig) (P : List String) (m : Nat)
    (hmax : cfg.maxResults = some m) :
    ∀ (items : List Item) (acc : List ResultRecord), acc.length < m →
    (processItems cfg P acc items).length ≤ m := by
  intro items
  induction items with
  | nil =>
    intro acc hlt
    rw [processItems]
    omega
  | cons item rest ih =>
    intro acc hlt
    rw [processItems]
    by_cases hrej : itemReject cfg P acc item = true
    · rw [if_pos hrej]
      exact ih acc hlt
    · rw [if_neg hrej]
      simp only []
      have hlen : (acc ++ [(⟨item.title, item.link⟩ : ResultRecord)]).length
          = acc.length + 1 := by
        simp
      by_cases ht : targetReachedB cfg (acc ++ [⟨item.title, item.link⟩]) = true
      · rw [if_pos ht]
        omega
      · rw [if_neg ht]
        have hlt' : (acc ++ [(⟨item.title, item.link⟩ : ResultRecord)]).length < m := by
          rw [targetReachedB, hmax] at ht
          simp only [decide_eq_true_eq] at ht
          omega
        exact ih _ hlt'

lemma processItems_stop (cfg : FetchConfig) (P : List String) (m : Nat)
    (hmax : cfg.maxResults = some m) :
    ∀ (items : List Item) (acc : List ResultRecord), acc.length < m →
    (processItems cfg P acc items).length = m →
    ∀ rest : List Item,
      processItems cfg P acc (items ++ rest) = processItems cfg P acc items := by
  intro items
  induction items with
  | nil =>
    intro acc hlt heq rest
    rw [processItems] at heq
    omega
  | cons item tail ih =>
    intro acc hlt heq rest
    rw [processItems] at heq
    rw [List.cons_append, processItems, processItems]
    by_cases hrej : itemReject cfg P acc item = true
    · rw [if_pos hrej, if_pos hrej]
      rw [if_pos hrej] at heq
      exact ih acc hlt heq rest
    · rw [if_neg hrej, if_neg hrej]
      rw [if_neg hrej] at heq
      simp only [] at heq ⊢
      by_cases ht : targetReachedB cfg (acc ++ [⟨item.title, item.link⟩]) = true
      · rw [if_pos ht, if_pos ht]
      · rw [if_neg ht, if_neg ht]
        rw [if_neg ht] at heq
        have hlt' : (acc ++ [(⟨item.title, item.link⟩ : ResultRecord)]).length < m := by
          rw [targetReachedB, hmax] at ht
          simp only [decide_eq_true_eq] at ht
          omega
        exact ih _ hlt' heq rest

/-- C2: in the incremental item loop, starting below the target: every
newly accepted record has a normalized URL outside the historical processed
set; normalized-URL uniqueness of the accumulator is preserved (items
duplicating an already-accepted URL are rejected); the accumulator never
exceeds the target; and once the accumulator reaches the target mid-page,
any further items of the page are ignored. -/
theorem c2_page_filter_and_midpage_stop (cfg : FetchConfig) (P : List String)
    (acc : List ResultRecord) (items : List Item) (m : Nat)
    (hmax : cfg.maxResults = some m) (hlt : acc.length < m) :
    (∀ r ∈ processItems cfg P acc items,
      r ∈ acc ∨ P.contains (normalizeUrl r.URL) = false)
    ∧ (((acc.map fun r => normalizeUrl r.URL).Nodup) →
        ((processItems cfg P acc items).map fun r => normalizeUrl r.URL).Nodup)
    ∧ (processItems cfg P acc items).length ≤ m
    ∧ ((processItems cfg P acc items).length = m →
        ∀ rest : List Item,
          processItems cfg P acc (items ++ rest) = processItems cfg P acc items) := by
  exact ⟨processItems_mem cfg P items acc,
    processItems_nodup cfg P items acc,
    processItems_len cfg P m hmax items acc hlt,
    fun heq rest => processItems_stop cfg P m hmax items acc hlt heq rest⟩

/-- C2 witness: target 2, a page holding a previously-processed URL, a
fresh URL, an in-run duplicate of it, a second fresh URL and a further
fresh URL: exactly the two fresh URLs up to the target are accepted, and
appending more items to the page changes nothing. -/
theorem c2_page_filter_and_midpage_stop_witness :
    processItems ⟨some 2, [], none⟩ ["http://s.com"] []
        [⟨"S", "http://s.com", none⟩, ⟨"A", "http://a.com", none⟩,
         ⟨"B", "http://a.com", none⟩, ⟨"C", "http://c.com", none⟩,
         ⟨"D", "http://d.com", none⟩]
      = [⟨"A", "http://a.com"⟩, ⟨"C", "http://c.com"⟩]
    ∧ processItems ⟨some 2, [], none⟩ ["http://s.com"] []
        ([⟨"S", "http://s.com", none⟩, ⟨"A", "http://a.com", none⟩,
          ⟨"B", "http://a.com", none⟩, ⟨"C", "http://c.com", none⟩,
          ⟨"D", "http://d.com", none⟩] ++ [⟨"E", "http://e.com", none⟩])
      = processItems ⟨some 2, [], none⟩ ["http://s.com"] []
        [⟨"S", "http://s.com", none⟩, ⟨"A", "http://a.com", none⟩,
         ⟨"B", "http://a.com", none⟩, ⟨"C", "http://c.com", none⟩,
         ⟨"D", "http://d.com", none⟩] := by
  have h := c2_page_filter_and_midpage_stop ⟨some 2, [], none⟩ ["http://s.com"] []
    [⟨"S", "http://s.com", none⟩, ⟨"A", "http://a.com", none⟩,
     ⟨"B", "http://a.com", none⟩, ⟨"C", "http://c.com", none⟩,
     ⟨"D", "http://d.com", none⟩] 2 rfl (by decide)
  exact ⟨by decide, h.2.2.2 (by decide) [⟨"E", "http://e.com", none⟩]⟩

/-- C5: whenever the loop is still running (guard holds) and the response
to the request it issues is a transport or decode failure, the loop exits
at once with exactly the accumulator built before the failure: no item of
the failed page is accepted, and the remaining request trace holds only
the single failed request (no retry). -/
theorem c5_error_aborts_immediately (cfg : FetchConfig) (P : List String)
    (responses : Nat → FetchResponse) (fuel : Nat) (s : LoopState)
    (hg : guardContinue cfg s.acc = true)
    (herr : responses s.reqCount = .err) :
    runNew cfg P responses (fuel + 1) s
      = some ([s.startIndex], s.acc, .fetchError) := by
  rw [runNew, if_pos hg, herr]
  rfl

/-- C5 witness: a run that accepted one record from the first page and then
hits a failure on its second request returns exactly that record with the
fetchError reason, issuing no further request. -/
theorem c5_error_aborts_immediately_witness :
    runNew ⟨some 5, [], none⟩ []
        (fun n => if n = 0 then .ok [⟨"A", "http://a.com", none⟩] (some 11)
          else .err)
        1 ⟨11, [⟨"A", "http://a.com"⟩], 1⟩
      = some ([11], [⟨"A", "http://a.com"⟩], .fetchError) := by
  exact c5_error_aborts_immediately ⟨some 5, [], none⟩ []
    (fun n => if n = 0 then .ok [⟨"A", "http://a.com", none⟩] (some 11)
      else .err)
    0 ⟨11, [⟨"A", "http://a.com"⟩], 1⟩ (by decide) (by decide)

lemma stepAll_no_target {cfg : FetchConfig} (hmx : cfg.maxResults = none)
    {s : AllState} {resp : FetchResponse} {its : List Item} {r : ExitReason}
    (h : stepAll cfg s resp = .stop its r) : r ≠ .targetReached := by
  cases resp with
  | err =>
    rw [stepAll] at h
    injection h with _ h2
    subst h2
    intro hc
    cases hc
  | ok items next =>
    rw [stepAll] at h
    by_cases he : items.isEmpty = true
    · rw [if_pos he] at h
      injection h with _ h2
      subst h2
      intro hc
      cases hc
    · rw [if_neg he] at h
      simp only [] at h
      have hatm : atMax cfg (s.allItems ++ items).length = false := by
        simp [atMax, effMax, hmx]
      simp only [hatm] at h
      rw [if_neg (by simp)] at h
      cases hh : hintVal next with
      | none =>
        simp only [hh] at h
        injection h with _ h2
        subst h2
        intro hc
        cases hc
      | some n =>
        simp only [hh] at h
        by_cases hn : n > 91
        · rw [if_pos hn] at h
          injection h with _ h2
          subst h2
          intro hc
          cases hc
        · rw [if_neg hn] at h
          cases h

lemma runAll_no_target {cfg : FetchConfig} (hmx : cfg.maxResults = none)
    (responses : Nat → FetchResponse) :
    ∀ (fuel : Nat) (s : AllState) (tr : List Nat) (items : List Item)
      (reason : ExitReason),
    runAll cfg responses fuel s = some (tr, items, reason) →
    reason ≠ .targetReached := by
  intro fuel
  induction fuel with
  | zero =>
    intro s tr items reason h
    rw [runAll] at h
    cases h
  | succ fuel ih =>
    intro s tr items reason h
    rw [runAll] at h
    have hatm : atMax cfg s.allItems.length = false := by
      simp [atMax, effMax, hmx]
    simp only [hatm] at h
    rw [if_neg (by simp)] at h
    cases hstep : stepAll cfg s (responses s.reqCount) with
    | stop its r =>
      simp only [hstep] at h
      injection h with h1
      injection h1 with _ h2
      injection h2 with _ h3
      subst h3
      exact stepAll_no_target hmx hstep
    | next s' =>
      simp only [hstep] at h
      cases hrec : runAll cfg responses fuel s' with
      | none => simp only [hrec] at h; cases h
      | some out =>
        obtain ⟨tr', its', r'⟩ := out
        simp only [hrec] at h
        injection h with h1
        injection h1 with _ h2
        injection h2 with _ h3
        subst h3
        exact ih s' tr' its' r' hrec

/-- C10: with an absent (or zero) `maxResults`, the incremental variant's
loop guard fails at once, so the run issues no request and returns no
records, while the fetch-all variant treats an absent `maxResults` as an
unbounded target: none of its terminating runs exits with the
target-reached reason, so pagination proceeds until another stop condition
holds. -/
theorem c10_missing_max_results_divergence :
    (∀ (cfg : FetchConfig) (P : List String)
      (responses : Nat → FetchResponse) (fuel : Nat),
      cfg.maxResults = none ∨ cfg.maxResults = some 0 →
      runNew cfg P responses (fuel + 1) initState
        = some ([], [], .targetReached))
    ∧ (∀ (cfg : FetchConfig) (responses : Nat → FetchResponse) (fuel : Nat)
        (s : AllState) (tr : List Nat) (items : List Item)
        (reason : ExitReason),
      cfg.maxResults = none →
      runAll cfg responses fuel s = some (tr, items, reason) →
      reason ≠ .targetReached) := by
  constructor
  · intro cfg P responses fuel hmx
    have hg : guardContinue cfg initState.acc = false := by
      rcases hmx with h | h <;> simp [guardContinue, initState, h]
    rw [runNew, if_neg (by simp [hg])]
    rfl
  · intro cfg responses fuel s tr items reason hmx h
    exact runAll_no_target hmx responses fuel s tr items reason h

/-- C10 witness: with maxResults absent, the incremental run returns
immediately with no requests; a concrete fetch-all run over a one-page
stream terminates with the no-more-pages reason, which is not
target-reached. -/
theorem c10_missing_max_results_divergence_witness :
    runNew ⟨none, [], none⟩ [] (fun _ => .ok [⟨"t", "u", none⟩] none) 1 initState
      = some ([], [], .targetReached)
    ∧ (ExitReason.noMorePages ≠ ExitReason.targetReached) := by
  constructor
  · exact c10_missing_max_results_divergence.1 ⟨none, [], none⟩ []
      (fun _ => .ok [⟨"t", "u", none⟩] none) 0 (Or.inl rfl)
  · exact c10_missing_max_results_divergence.2 ⟨none, [], none⟩
      (fun _ => .ok [⟨"t", "u", none⟩] none) 1 initAllState
      [1] [⟨"t", "u", none⟩] .noMorePages rfl (by decide)

lemma runNew_term_aux (cfg : FetchConfig) (P : List String)
    (responses : Nat → FetchResponse) (hadv : hintsAdvance responses) :
    ∀ (fuel : Nat) (s : LoopState),
    s.reqCount + 1 ≤ s.startIndex → s.startIndex ≤ 91 →
    92 ≤ s.reqCount + fuel →
    (runNew cfg P responses fuel s).isSome := by
  intro fuel
  induction fuel with
  | zero =>
    intro s h1 h2 h3
    omega
  | succ fuel ih =>
    intro s h1 h2 h3
    rw [runNew]
    by_cases hg : guardContinue cfg s.acc = true
    · rw [if_pos hg]
      cases hstep : stepNew cfg P s (responses s.reqCount) with
      | stop recs reason => simp
      | next s' =>
        obtain ⟨hcount, hle, items, next, hresp, hhint⟩ := stepNew_next_shape hstep
        have hk : s.reqCount + 2 ≤ s'.startIndex :=
          hadv s.reqCount items next s'.startIndex hresp hhint
        have hval := ih s' (by omega) hle (by omega)
        cases hrec : runNew cfg P responses fuel s' with
        | none => rw [hrec] at hval; cases hval
        | some out =>
          obtain ⟨tr, recs, reason⟩ := out
          simp only [hrec]
          simp
    · rw [if_neg hg]
      simp

lemma runNew_trace_le (cfg : FetchConfig) (P : List String)
    (responses : Nat → FetchResponse) :
    ∀ (fuel : Nat) (s : LoopState) (tr : List Nat) (recs : List ResultRecord)
      (reason : ExitReason),
    s.startIndex ≤ 91 →
    runNew cfg P responses fuel s = some (tr, recs, reason) →
    ∀ i ∈ tr, i ≤ 91 := by
  intro fuel
  induction fuel with
  | zero =>
    intro s tr recs reason hle h
    rw [runNew] at h
    cases h
  | succ fuel ih =>
    intro s tr recs reason hle h i hi
    rw [runNew] at h
    by_cases hg : guardContinue cfg s.acc = true
    · rw [if_pos hg] at h
      cases hstep : stepNew cfg P s (responses s.reqCount) with
      | stop recs' reason' =>
        simp only [hstep] at h
        injection h with h1
        injection h1 with h2 _
        subst h2
        rw [List.mem_singleton] at hi
        subst hi
        exact hle
      | next s' =>
        simp only [hstep] at h
        cases hrec : runNew cfg P responses fuel s' with
        | none => simp only [hrec] at h; cases h
        | some out =>
          obtain ⟨tr', recs', reason'⟩ := out
          simp only [hrec] at h
          injection h with h1
          injection h1 with h2 _
          subst h2
          rcases List.mem_cons.mp hi with h4 | h4
          · subst h4
            exact hle
          · obtain ⟨_, hle', _⟩ := stepNew_next_shape hstep
            exact ih s' tr' recs' reason' hle' hrec i h4
    · rw [if_neg hg] at h
      injection h with h1
      injection h1 with h2 _
      subst h2
      cases hi

/-- C4 (amended): over any response stream whose next-page hints always
advance the cursor (as the real endpoint's do), the pagination loop of the
incremental variant exits within 92 iterations — by construction of
`ExitReason`, only via target-reached, no-more-pages, the 91 offset
ceiling, or a fetch error — and in every terminating run every issued
request has a start offset of at most 91. -/
theorem c4_pagination_terminates_and_offset_bound (cfg : FetchConfig)
    (P : List String) (responses : Nat → FetchResponse)
    (hadv : hintsAdvance responses) :
    (∃ out, runNew cfg P responses 92 initState = some out)
    ∧ (∀ (fuel : Nat) (tr : List Nat) (recs : List ResultRecord)
        (reason : ExitReason),
      runNew cfg P responses fuel initState = some (tr, recs, reason) →
      ∀ i ∈ tr, i ≤ 91) := by
  constructor
  · have h := runNew_term_aux cfg P responses hadv 92 initState
      (by decide) (by decide) (by simp [initState])
    exact Option.isSome_iff_exists.mp h
  · intro fuel tr recs reason h
    exact runNew_trace_le cfg P responses fuel initState tr recs reason
      (by decide) h

/-- C4 witness: a concrete stream with strictly advancing hints (the n-th
response hints offset n + 2) terminates within the stated bound; its trace
offsets are all at most 91. -/
theorem c4_pagination_terminates_and_offset_bound_witness :
    (∃ out, runNew ⟨some 1, [], none⟩ []
        (fun n => .ok [⟨"t", "u", none⟩] (some (n + 2))) 92 initState
      = some out)
    ∧ (∀ i ∈ [1], i ≤ 91) := by
  have h := c4_pagination_terminates_and_offset_bound ⟨some 1, [], none⟩ []
    (fun n => .ok [⟨"t", "u", none⟩] (some (n + 2)))
    (by
      intro n items next k h1 h2
      injection h1 with _ h3
      subst h3
      rw [show hintVal (some (n + 2)) = some (n + 2) from rfl] at h2
      injection h2 with h4
      omega)
  refine ⟨h.1, ?_⟩
  exact h.2 1 [1] [⟨"t", "u"⟩] .targetReached (by decide)

lemma c4_step_repeat (n : Nat) :
    stepNew c4Cfg [] ⟨2, [c4Rec], n⟩ (c4Responses n)
      = .next ⟨2, [c4Rec], n + 1⟩ := by
  rfl

lemma c4_loop_forever : ∀ (fuel n : Nat),
    runNew c4Cfg [] c4Responses fuel ⟨2, [c4Rec], n⟩ = none := by
  intro fuel
  induction fuel with
  | zero => intro n; rfl
  | succ fuel ih =>
    intro n
    rw [runNew, if_pos (by decide : guardContinue c4Cfg [c4Rec] = true)]
    rw [show (⟨2, [c4Rec], n⟩ : LoopState).reqCount = n from rfl]
    rw [c4_step_repeat n]
    simp only [ih (n + 1)]

/-- C4 counterexample: against the adversarial stream that always replays a
one-item page with the fixed next-page hint 2, the pagination loop never
exits — after the first page the accumulator never grows (the item is an
in-run duplicate) and the cursor never advances, so no fuel suffices: the
loop does not terminate for every sequence of remote responses. -/
theorem c4_counterexample :
    ¬ ∃ (fuel : Nat) (out : List Nat × List ResultRecord × ExitReason),
      runNew c4Cfg [] c4Responses fuel initState = some out := by
  rintro ⟨fuel, out, h⟩
  cases fuel with
  | zero => rw [runNew] at h; cases h
  | succ fuel =>
    rw [runNew, if_pos (by decide : guardContinue c4Cfg initState.acc = true)]
      at h
    rw [show initState.reqCount = 0 from rfl] at h
    rw [show stepNew c4Cfg [] initState (c4Responses 0)
        = .next ⟨2, [c4Rec], 1⟩ from rfl] at h
    simp only [c4_loop_forever fuel 1] at h
    cases h

lemma processItems_no_trunc (cfg : FetchConfig) (P : List String) :
    ∀ (items : List Item) (acc : List ResultRecord),
    (∀ m, cfg.maxResults = some m → acc.length + items.length ≤ m) →
    processItems cfg P acc items = items.foldl (acceptStep cfg P) acc := by
  intro items
  induction items with
  | nil =>
    intro acc _
    rw [processItems, List.foldl_nil]
  | cons it rest ih =>
    intro acc h
    rw [processItems, List.foldl_cons]
    by_cases hrej : itemReject cfg P acc it = true
    · rw [if_pos hrej]
      have ha : acceptStep cfg P acc it = acc := by
        rw [acceptStep, if_pos hrej]
      rw [ha]
      refine ih acc fun m hm => ?_
      have := h m hm
      simp only [List.length_cons] at this
      omega
    · rw [if_neg hrej]
      have ha : acceptStep cfg P acc it = acc ++ [⟨it.title, it.link⟩] := by
        rw [acceptStep, if_neg hrej]
      simp only []
      by_cases ht : targetReachedB cfg (acc ++ [⟨it.title, it.link⟩]) = true
      · have hrest : rest = [] := by
          cases hmx : cfg.maxResults with
          | none => rw [targetReachedB, hmx] at ht; cases ht
          | some m =>
            have hb := h m hmx
            rw [targetReachedB, hmx] at ht
            simp only [decide_eq_true_eq, List.length_append] at ht
            simp only [List.length_cons] at hb
            have hz : rest.length = 0 := by
              simp only [List.length_singleton] at ht
              omega
            exact List.length_eq_zero.mp hz
        subst hrest
        rw [if_pos ht, ha, List.foldl_nil]
      · rw [if_neg ht, ha]
        refine ih _ fun m hm => ?_
        have := h m hm
        simp only [List.length_cons] at this
        simp only [List.length_append, List.length_singleton]
        omega

lemma foldl_mainFilter (cfg : FetchConfig) :
    ∀ (items : List Item) (init : List ResultRecord),
    items.foldl (fun acc item =>
        if containsAvoidKeyword item.title cfg.avoidKeywords then acc
        else if dateReject cfg.minDateObj item then acc
        else acc ++ [⟨item.title, item.link⟩]) init
      = init ++ items.filterMap (fun it =>
          if containsAvoidKeyword it.title cfg.avoidKeywords
              || dateReject cfg.minDateObj it
            then none else some ⟨it.title, it.link⟩) := by
  intro items
  induction items with
  | nil => intro init; simp
  | cons it rest ih =>
    intro init
    by_cases ha : containsAvoidKeyword it.title cfg.avoidKeywords = true
    · simp [List.foldl_cons, List.filterMap_cons, ha, ih init]
    · by_cases hd : dateReject cfg.minDateObj it = true
      · simp [List.foldl_cons, List.filterMap_cons, ha, hd, ih init]
      · simp [List.foldl_cons, List.filterMap_cons, ha, hd,
          ih (init ++ [(⟨it.title, it.link⟩ : ResultRecord)]),
          List.append_assoc]

lemma filter_filterMap_fuse (cfg : FetchConfig) (P : List String) :
    ∀ items : List Item,
    ((items.filterMap (fun it =>
        if containsAvoidKeyword it.title cfg.avoidKeywords
            || dateReject cfg.minDateObj it
          then none else some (⟨it.title, it.link⟩ : ResultRecord))).filter
      (fun r => !(P.contains r.URL)))
    = items.filterMap (fun it =>
        if rejectA cfg P it then none else some ⟨it.title, it.link⟩) := by
  intro items
  rw [List.filter_filterMap]
  congr 1
  funext it
  by_cases ha : (containsAvoidKeyword it.title cfg.avoidKeywords
      || dateReject cfg.minDateObj it) = true
  · have hA : rejectA cfg P it = true := by
      rw [rejectA]
      cases h1 : containsAvoidKeyword it.title cfg.avoidKeywords <;>
        cases h2 : dateReject cfg.minDateObj it <;>
        simp [h1, h2] at ha ⊢
    rw [if_pos ha, if_pos hA]
    rfl
  · have haf := Bool.eq_false_iff.mpr ha
    simp only [Bool.or_eq_false_iff] at haf
    by_cases hc : P.contains it.link = true
    · have hmem : it.link ∈ P := List.elem_iff.mp hc
      have hA : rejectA cfg P it = true := by
        simp [rejectA, hmem]
      rw [if_neg ha, if_pos hA]
      simp [Option.filter, hmem]
    · have hcf : P.contains it.link = false := Bool.eq_false_iff.mpr hc
      have hnm : it.link ∉ P := by
        intro hmem
        have hT : P.contains it.link = true := List.elem_iff.mpr hmem
        rw [hT] at hcf
        cases hcf
      have hA : rejectA cfg P it = false := by
        simp [rejectA, hnm, haf.1, haf.2]
      rw [if_neg ha]
      rw [show (if rejectA cfg P it = true then none
          else some (⟨it.title, it.link⟩ : ResultRecord))
        = some ⟨it.title, it.link⟩ from by rw [hA]; rfl]
      simp [Option.filter, hnm]

lemma mainNewResults_filterMap (cfg : FetchConfig) (P : List String)
    (items : List Item) :
    mainNewResults cfg P items
      = items.filterMap (fun it =>
          if rejectA cfg P it then none else some ⟨it.title, it.link⟩) := by
  rw [mainNewResults, mainFilter, foldl_mainFilter cfg items [],
    List.nil_append, filter_filterMap_fuse cfg P items]

lemma foldl_acceptStep_eq (cfg : FetchConfig) (P : List String) :
    ∀ (items : List Item) (acc : List ResultRecord),
    (∀ it ∈ items, normalizeUrl it.link = it.link) →
    ((items.map Item.link).Nodup) →
    (∀ r ∈ acc, normalizeUrl r.URL = r.URL) →
    (∀ r ∈ acc, ∀ it ∈ items, r.URL ≠ it.link) →
    items.foldl (acceptStep cfg P) acc
      = acc ++ items.filterMap (fun it =>
          if rejectA cfg P it then none else some ⟨it.title, it.link⟩) := by
  intro items
  induction items with
  | nil => intro acc _ _ _ _; simp
  | cons it rest ih =>
    intro acc hI hnd hacc hsep
    have hlink : normalizeUrl it.link = it.link :=
      hI it (List.mem_cons_self _ _)
    have hdup : (acc.any fun r => normalizeUrl r.URL == it.link) = false := by
      rw [List.any_eq_false]
      intro r hr
      have h1 := hacc r hr
      have h2 := hsep r hr it (List.mem_cons_self _ _)
      rw [h1]
      simp [h2]
    have hireject : itemReject cfg P acc it = rejectA cfg P it := by
      simp only [itemReject, rejectA, hlink, hdup]
      cases h1 : containsAvoidKeyword it.title cfg.avoidKeywords <;>
        cases h2 : dateReject cfg.minDateObj it <;>
        cases h3 : P.contains it.link <;> simp
    have hI' : ∀ x ∈ rest, normalizeUrl x.link = x.link :=
      fun x hx => hI x (List.mem_cons_of_mem _ hx)
    have hnd' : (rest.map Item.link).Nodup := by
      rw [List.map_cons] at hnd
      exact (List.nodup_cons.mp hnd).2
    have hhd : it.link ∉ rest.map Item.link := by
      rw [List.map_cons] at hnd
      exact (List.nodup_cons.mp hnd).1
    rw [List.foldl_cons]
    by_cases hA : rejectA cfg P it = true
    · have hstep : acceptStep cfg P acc it = acc := by
        rw [acceptStep, if_pos (by rw [hireject]; exact hA)]
      rw [hstep]
      rw [List.filterMap_cons_none (by rw [if_pos hA])]
      exact ih acc hI' hnd' hacc
        (fun r hr x hx => hsep r hr x (List.mem_cons_of_mem _ hx))
    · have hAf : rejectA cfg P it = false := Bool.eq_false_iff.mpr hA
      have hstep : acceptStep cfg P acc it
          = acc ++ [⟨it.title, it.link⟩] := by
        rw [acceptStep, if_neg (by rw [hireject]; exact hA)]
      rw [hstep]
      have hf : (fun x => if rejectA cfg P x = true then none
          else some (⟨x.title, x.link⟩ : ResultRecord)) it
          = some ⟨it.title, it.link⟩ := by
        show (if rejectA cfg P it = true then none
          else some (⟨it.title, it.link⟩ : ResultRecord))
          = some ⟨it.title, it.link⟩
        rw [hAf]
        rfl
      rw [List.filterMap_cons_some (f := fun x =>
          if rejectA cfg P x = true then none
          else some (⟨x.title, x.link⟩ : ResultRecord)) hf]
      have hacc' : ∀ r ∈ acc ++ [(⟨it.title, it.link⟩ : ResultRecord)],
          normalizeUrl r.URL = r.URL := by
        intro r hr
        rcases List.mem_append.mp hr with h | h
        · exact hacc r h
        · rw [List.mem_singleton] at h
          subst h
          exact hlink
      have hsep' : ∀ r ∈ acc ++ [(⟨it.title, it.link⟩ : ResultRecord)],
          ∀ x ∈ rest, r.URL ≠ x.link := by
        intro r hr x hx
        rcases List.mem_append.mp hr with h | h
        · exact hsep r h x (List.mem_cons_of_mem _ hx)
        · rw [List.mem_singleton] at h
          subst h
          intro heq
          apply hhd
          rw [show ({ Title := it.title, URL := it.link } :
              ResultRecord).URL = it.link from rfl] at heq
          rw [heq]
          exact List.mem_map_of_mem Item.link hx
      refine (ih (acc ++ [⟨it.title, it.link⟩]) hI' hnd' hacc' hsep').trans ?_
      simp

/-- C6 (amended): when the target cannot truncate either variant (the
configured maximum, if present, is at least the number of served items),
every line of the processed file is a normalization fixed point, every
served link is a normalization fixed point, and the served links are
pairwise distinct, the incremental dedup-before-filter pipeline of part_001
and the filter-before-dedup pipeline of googleSearch.js accept exactly the
same records, each loading the processed file through its own loader. -/
theorem c6_variant_equivalence (cfg : FetchConfig) (data : String)
    (items : List Item)
    (hm : ∀ m, cfg.maxResults = some m → items.length ≤ m)
    (hfile : ∀ u ∈ loadProcessedUrlsAll data, normalizeUrl u = u)
    (hI : ∀ it ∈ items, normalizeUrl it.link = it.link)
    (hnd : (items.map Item.link).Nodup) :
    processItems cfg (loadProcessedUrlsNew data) [] items
      = mainNewResults cfg (loadProcessedUrlsAll data) items := by
  have hPeq : loadProcessedUrlsNew data = loadProcessedUrlsAll data := by
    rw [show loadProcessedUrlsNew data
        = (loadProcessedUrlsAll data).map normalizeUrl from rfl]
    rw [List.map_congr_left hfile, List.map_id']
  rw [hPeq]
  rw [processItems_no_trunc cfg (loadProcessedUrlsAll data) items []
    (fun m h => by simpa using hm m h)]
  rw [foldl_acceptStep_eq cfg (loadProcessedUrlsAll data) items [] hI hnd
    (by simp) (by simp)]
  rw [mainNewResults_filterMap, List.nil_append]

/-- C6 witness: a concrete already-normalized, duplicate-free page with one
processed URL, one avoid-keyword hit and two fresh links, under a
non-truncating target: both pipelines produce the same records. -/
theorem c6_variant_equivalence_witness :
    processItems ⟨some 10, ["intern"], none⟩
        (loadProcessedUrlsNew "http://old.com\n") []
        [⟨"new role", "http://new.com", none⟩,
         ⟨"intern role", "http://i.com", none⟩,
         ⟨"old role", "http://old.com", none⟩]
      = mainNewResults ⟨some 10, ["intern"], none⟩
        (loadProcessedUrlsAll "http://old.com\n")
        [⟨"new role", "http://new.com", none⟩,
         ⟨"intern role", "http://i.com", none⟩,
         ⟨"old role", "http://old.com", none⟩] := by
  exact c6_variant_equivalence ⟨some 10, ["intern"], none⟩ "http://old.com\n"
    [⟨"new role", "http://new.com", none⟩,
     ⟨"intern role", "http://i.com", none⟩,
     ⟨"old role", "http://old.com", none⟩]
    (fun m hm => by injection hm with h; subst h; decide)
    (by decide) (by decide) (by decide)

/-- C6 counterexample: with the processed file holding "http://a.com" and a
single served item whose link is "HTTP://A.COM" (a case variant), under a
target of 10 that truncates nothing (one item served), the incremental
variant accepts nothing while the googleSearch.js pipeline accepts the
record: the two variants do not accept the same set. -/
theorem c6_counterexample :
    processItems ⟨some 10, [], none⟩ (loadProcessedUrlsNew "http://a.com\n")
        [] [⟨"T", "HTTP://A.COM", none⟩] = []
    ∧ mainNewResults ⟨some 10, [], none⟩
        (loadProcessedUrlsAll "http://a.com\n")
        [⟨"T", "HTTP://A.COM", none⟩]
      = [⟨"T", "HTTP://A.COM"⟩] := by
  decide

/-- C3 witness: a concrete criteria value with one title keyword and one
domain, evaluated through the theorem: the built query equals the joined
clause list and the title clause it contains is non-empty. -/
theorem c3_query_one_clause_per_category_witness :
    buildQuery ⟨["frontend developer"], [], ["workday.com"], [], none, []⟩
      = String.intercalate " "
        (queryClauses ⟨["frontend developer"], [], ["workday.com"], [], none, []⟩)
    ∧ ("intitle:(" ++ orJoin (["frontend developer"].map quoteTerm) ++ ")")
      ≠ "" := by
  refine ⟨(c3_query_one_clause_per_category
    ⟨["frontend developer"], [], ["workday.com"], [], none, []⟩).1, ?_⟩
  exact (c3_query_one_clause_per_category
    ⟨["frontend developer"], [], ["workday.com"], [], none, []⟩).2
    _ (by decide)

/-- C8 witness: the spec's example title is flagged against the avoid
keyword "government clearance", via the theorem's example component. -/
theorem c8_avoid_keyword_substring_witness :
    containsAvoidKeyword
      "Senior Frontend Developer (Cleared — Government Clearance Required)"
      ["government clearance"] = true :=
  (c8_avoid_keyword_substring "" []).2

/-- C9 witness: a fresh output file receives the header followed by the
escaped row, and the example title serializes as the spec states, via the
theorem at a concrete record list. -/
theorem c9_csv_escaping_and_header_witness :
    appendToCSVData false [⟨"A", "http://a.com"⟩]
      = (if false then "" else "Title,URL\n")
        ++ csvRowsJoined [⟨"A", "http://a.com"⟩]
    ∧ escapeCSV "Senior \"Frontend\" Dev" = "\"Senior \"\"Frontend\"\" Dev\"" :=
  ⟨(c9_csv_escaping_and_header false [⟨"A", "http://a.com"⟩]).1,
    (c9_csv_escaping_and_header false []).2.2⟩

/-- C3 counterexample: the part_002 builder, on criteria with non-empty
intitle-keyword and keyword categories but empty domains and locations,
builds a query holding the empty-parentheses clause `()` twice — one per
empty category — and no intitle clause at all for the non-empty
intitle category: the built query is not one clause per non-empty category
with zero clauses for the empty ones. -/
theorem c3_counterexample :
    buildQueryOld
        ⟨["frontend developer"], ["senior"], [], [], none, ["clearance"]⟩
      = "(\"senior\") () ()"
    ∧ includes
        (buildQueryOld
          ⟨["frontend developer"], ["senior"], [], [], none, ["clearance"]⟩)
        "()" = true := by
  decide

end JobSeeker
